import Mathlib

/-!
Verification development for the kline/volume monitor.

Shallow embedding of the detection and alert-gating core:
* `kline_monitor.py` — price-deviation check, one-line (degenerate candle)
  check, per-symbol dedup/cooldown state;
* `volume_monitor.py` — windowed volume-ratio comparison with its own
  dedup/cooldown state;
* `platform_connector.py` — fetch control flow (attempt counting, error
  taxonomy, row shape);
* `daily_report_kline_volume.py` — per-field daily aggregation check and the
  summary chunker.

Python floats are modelled as exact rationals (`ℚ`); a DB/API field value that
`float(...)` cannot parse is modelled as `none` (the code coerces such values
to `0.0` via `to_f` / `_to_float` / `_safe_float`, all with default `0.0`).
Timestamps are integers (milliseconds).
-/

namespace Monitor

/-- A raw field value: `some q` when `float(x)` succeeds, `none` when it
raises (`to_f` then yields the default `0.0`). -/
abbrev Val := Option ℚ

/-- Model of `to_f` / `_to_float` / `_safe_float`: parse failure coerces
to `0.0`. -/
def to_f (v : Val) : ℚ := v.getD 0

/-- Model of the local `rel` in `_check_price_deviation`:
`0.0 if b == 0 else (a - b) / b`. -/
def rel (a b : ℚ) : ℚ := if b = 0 then 0 else (a - b) / b

/-- One DB row of a kline as read by `_select_recent_rows`:
`ts_ms, open, high, low, close`. -/
structure Rec where
  ts : Int
  open_ : Val
  high : Val
  low : Val
  close : Val
deriving DecidableEq

/-- The four per-field deviation thresholds read by
`_read_price_thresholds`. -/
structure PriceThresholds where
  thOpen : ℚ
  thHigh : ℚ
  thLow : ℚ
  thClose : ℚ
deriving DecidableEq

/-- Whether one OHLC field is over threshold in `_check_price_deviation`:
`rel_diff = abs(rel(a, b))`, `over = rel_diff > thr`, with both sides first
coerced by `to_f`. -/
def fieldOver (a b : Val) (thr : ℚ) : Bool :=
  decide (|rel (to_f a) (to_f b)| > thr)

/-- A Breach record as accumulated in the `breaches` list of
`_check_price_deviation`: `(name, a_val, b_val, diff, abs_diff, rel_diff,
thr)`. -/
structure Breach where
  name : String
  aVal : ℚ
  bVal : ℚ
  diff : ℚ
  absDiff : ℚ
  relDiff : ℚ
  thr : ℚ
deriving DecidableEq

/-- Build the breach tuple for one field, as in the `pairs` dict of
`_check_price_deviation`. -/
def mkBreach (name : String) (a b thr : ℚ) : Breach :=
  ⟨name, a, b, a - b, |a - b|, |rel a b|, thr⟩

/-- The breach list produced by the OPEN/HIGH/LOW/CLOSE loop of
`_check_price_deviation` for one aligned pair of records. -/
def priceBreaches (ra rb : Rec) (t : PriceThresholds) : List Breach :=
  (if fieldOver ra.open_ rb.open_ t.thOpen then
      [mkBreach "OPEN" (to_f ra.open_) (to_f rb.open_) t.thOpen] else []) ++
  (if fieldOver ra.high rb.high t.thHigh then
      [mkBreach "HIGH" (to_f ra.high) (to_f rb.high) t.thHigh] else []) ++
  (if fieldOver ra.low rb.low t.thLow then
      [mkBreach "LOW" (to_f ra.low) (to_f rb.low) t.thLow] else []) ++
  (if fieldOver ra.close rb.close t.thClose then
      [mkBreach "CLOSE" (to_f ra.close) (to_f rb.close) t.thClose] else [])

/-- Model of `sorted(list(set_a & set_b))` over the `ts_ms` columns of two
row sets (`_check_price_deviation`). -/
def commonTs (rowsA rowsB : List Rec) : List Int :=
  (((rowsA.map Rec.ts).filter (fun t => (rowsB.map Rec.ts).contains t)).dedup).insertionSort (· ≤ ·)

/-- The window key observed by a price evaluation: `commons[-1]`, the latest
common candle-open. -/
def priceKey (rowsA rowsB : List Rec) : Option Int :=
  (commonTs rowsA rowsB).getLast?

/-- The breach list a price evaluation computes for its observed window key
(empty when no common key or lookup fails). -/
def priceBreachesOf (rowsA rowsB : List Rec) (t : PriceThresholds) : List Breach :=
  match priceKey rowsA rowsB with
  | none => []
  | some k =>
    match rowsA.find? (fun r => r.ts == k), rowsB.find? (fun r => r.ts == k) with
    | some ra, some rb => priceBreaches ra rb t
    | _, _ => []

/-- Per-symbol gate state of the price check: `LAST_PRICE_ALERT_END_TS` and
the `(symbol, "price")` slot of `LAST_ALERT_TIME` (which `.get(key, 0)`
defaults to `0`). -/
structure PriceState where
  lastEnd : Option Int
  lastAlertTime : ℚ
deriving DecidableEq

/-- Model of `_cooldown_ok(symbol, kind, cooldown_minutes)` acting on the
`LAST_ALERT_TIME` slot for this `(symbol, kind)`: returns the decision and
the (possibly updated) slot. -/
def cooldown_ok (cooldownMin : Int) (now last : ℚ) : Bool × ℚ :=
  if cooldownMin ≤ 0 then (true, last)
  else if now - last ≥ (cooldownMin : ℚ) * 60 then (true, now)
  else (false, last)

/-- One evaluation of `_check_price_deviation` for one symbol: returns
whether `notify` was invoked and the updated gate state. -/
def check_price_deviation (enabled : Bool) (t : PriceThresholds)
    (rowsA rowsB : List Rec) (cooldownMin : Int) (now : ℚ)
    (st : PriceState) : Bool × PriceState :=
  if !enabled then (false, st)
  else if rowsA.isEmpty || rowsB.isEmpty then (false, st)
  else
    match priceKey rowsA rowsB with
    | none => (false, st)
    | some klineTs =>
      if st.lastEnd = some klineTs then (false, st)
      else
        match rowsA.find? (fun r => r.ts == klineTs),
              rowsB.find? (fun r => r.ts == klineTs) with
        | some ra, some rb =>
          let breaches := priceBreaches ra rb t
          if breaches.isEmpty then (false, ⟨some klineTs, st.lastAlertTime⟩)
          else
            let ck := cooldown_ok cooldownMin now st.lastAlertTime
            if !ck.1 then (false, ⟨some klineTs, ck.2⟩)
            else (true, ⟨some klineTs, ck.2⟩)
        | _, _ => (false, st)

/-- Model of `_is_one_line(o, h, l, c, eps)`. -/
def is_one_line (o h l c eps : ℚ) : Bool :=
  decide (|h - l| ≤ eps) && decide (|o - c| ≤ eps) &&
  decide (|o - h| ≤ eps) && decide (|c - l| ≤ eps)

/-- The consecutive one-line run counted by `_check_one_line`, scanning from
the most recent row; an unparsable field breaks the run (the `except: break`
branch). -/
def oneLineRun (eps : ℚ) : List Rec → Nat
  | [] => 0
  | r :: rest =>
    match r.open_, r.high, r.low, r.close with
    | some o, some h, some l, some c =>
      if is_one_line o h l c eps then oneLineRun eps rest + 1 else 0
    | _, _, _, _ => 0

/-- Per-symbol gate state of the one-line check: `LAST_ONE_LINE_ALERT_END_TS`
plus the `(symbol, "one_line")` slot of `LAST_ALERT_TIME`. -/
structure OneLineState where
  lastEnd : Option Int
  lastAlertTime : ℚ
deriving DecidableEq

/-- One evaluation of `_check_one_line` for one symbol (the read
`require_streak` parameter is unused by the source check): returns whether
`notify` was invoked and the updated gate state. -/
def check_one_line (enabled : Bool) (countThreshold : Int) (eps : ℚ)
    (cooldownMin : Int) (rows : List Rec) (now : ℚ)
    (st : OneLineState) : Bool × OneLineState :=
  if !enabled then (false, st)
  else
    match rows with
    | [] => (false, st)
    | r0 :: _ =>
      let endTs := r0.ts
      let cnt := oneLineRun eps rows
      if (cnt : Int) ≥ countThreshold then
        if st.lastEnd = some endTs then (false, st)
        else
          let ck := cooldown_ok cooldownMin now st.lastAlertTime
          if !ck.1 then (false, ⟨some endTs, ck.2⟩)
          else (true, ⟨some endTs, ck.2⟩)
      else (false, st)

/-! ### volume_monitor.py -/

/-- One DB row read by `_select_recent_volume_rows`: `timestamp, volume`. -/
structure VRow where
  ts : Int
  volume : Val
deriving DecidableEq

/-- Per-symbol gate state of the volume check: `_LAST_CHECKED_END_TS`,
`_LAST_ALERTED_END_TS`, `_LAST_ALERT_WALLCLOCK` (absent key = `none`). -/
structure VolState where
  lastChecked : Option Int
  lastAlerted : Option Int
  lastWallclock : Option Int
deriving DecidableEq

/-- Wall-clock cooldown of `volume_monitor._cooldown_ok` (a pure predicate;
it does not update the wall-clock map). -/
def vol_cooldown_ok (cooldownMin : Int) (nowS : Int) (last : Option Int) : Bool :=
  if cooldownMin ≤ 0 then true
  else
    match last with
    | none => true
    | some l => decide (nowS - l ≥ cooldownMin * 60)

/-- Model of `sorted(list(set_a & set_b))` over the `timestamp` columns
(`_pick_latest_common_timestamps`). -/
def volCommonTs (rowsA rowsB : List VRow) : List Int :=
  (((rowsA.map VRow.ts).filter (fun t => (rowsB.map VRow.ts).contains t)).dedup).insertionSort (· ≤ ·)

/-- Model of `_pick_latest_common_timestamps(rows_a, rows_b, need)`:
empty when either side is empty or fewer than `need` common timestamps
exist, otherwise `commons[-need:]`. -/
def pick_latest_common_timestamps (rowsA rowsB : List VRow) (need : Nat) : List Int :=
  if rowsA.isEmpty || rowsB.isEmpty then []
  else
    let commons := volCommonTs rowsA rowsB
    if commons.length < need then [] else commons.drop (commons.length - need)

/-- Model of `_sum_vol_on_timestamps(rows, ts_keep)`. -/
def sum_vol_on_timestamps (rows : List VRow) (keep : List Int) : ℚ :=
  (rows.filter (fun r => keep.contains r.ts)).foldl (fun s r => s + to_f r.volume) 0

/-- The within-tolerance decision of `compare_volume_alert`:
`target_val = target_ratio * B_sum`; when `B_sum == 0 or target_val == 0`,
within iff `A_sum == 0`; else within iff `abs((A_sum - target_val) /
target_val) <= tolerance`. -/
def volWithin (targetRatio tolerance Asum Bsum : ℚ) : Bool :=
  let targetVal := targetRatio * Bsum
  if Bsum = 0 ∨ targetVal = 0 then decide (Asum = 0)
  else decide (|(Asum - targetVal) / targetVal| ≤ tolerance)

/-- The window key observed by a volume evaluation: the last element of the
picked common window (`ts_end = commons[-1]`). -/
def volKey (rowsA rowsB : List VRow) (windowLen : Nat) : Option Int :=
  (pick_latest_common_timestamps rowsA rowsB windowLen).getLast?

/-- The within-tolerance value a volume evaluation computes over its picked
common window. -/
def volWithinOf (rowsA rowsB : List VRow) (windowLen : Nat)
    (targetRatio tolerance : ℚ) : Bool :=
  let commons := pick_latest_common_timestamps rowsA rowsB windowLen
  volWithin targetRatio tolerance
    (sum_vol_on_timestamps rowsA commons) (sum_vol_on_timestamps rowsB commons)

/-- One per-symbol evaluation of `compare_volume_alert`: returns whether
`send_lark_alert` was invoked and the updated gate state. -/
def compare_volume_alert (targetRatio tolerance : ℚ) (cooldownMin : Int)
    (windowLen : Nat) (rowsA rowsB : List VRow) (nowS : Int)
    (st : VolState) : Bool × VolState :=
  if rowsA.length < windowLen || rowsB.length < windowLen then (false, st)
  else
    let commons := pick_latest_common_timestamps rowsA rowsB windowLen
    if commons.isEmpty || commons.length < windowLen then (false, st)
    else
      match commons.getLast? with
      | none => (false, st)
      | some tsEnd =>
        if st.lastChecked = some tsEnd then (false, st)
        else
          let st1 : VolState := ⟨some tsEnd, st.lastAlerted, st.lastWallclock⟩
          let Asum := sum_vol_on_timestamps rowsA commons
          let Bsum := sum_vol_on_timestamps rowsB commons
          if volWithin targetRatio tolerance Asum Bsum then (false, st1)
          else if st1.lastAlerted = some tsEnd then (false, st1)
          else if vol_cooldown_ok cooldownMin nowS st1.lastWallclock then
            (true, ⟨some tsEnd, some tsEnd, some nowS⟩)
          else (false, st1)

/-! ### Candle grid (`_normalize_candle_start`) -/

/-- Model of `_normalize_candle_start(ts_ms, interval_ms)`; Python `//` is
floor division (`Int.fdiv`). -/
def normalize_candle_start : Option Int → Int → Option Int
  | none, _ => none
  | some ts, intervalMs => some ((ts.fdiv intervalMs) * intervalMs)

/-! ### daily_report_kline_volume.py — per-field check -/

/-- Whether the inner `check` of `aggregate_daily_for_symbol` counts the
field as exceeded: skip when `b_val is None or _to_float(b_val) == 0.0`,
else count iff `abs(a - b) / abs(b) > thr`. -/
def dailyCheckCounts (aVal bVal : Val) (thr : ℚ) : Bool :=
  if bVal = none ∨ to_f bVal = 0 then false
  else decide (|to_f aVal - to_f bVal| / |to_f bVal| > thr)

/-! ### platform_connector.py

The remote endpoint is modelled as an oracle mapping the index of the HTTP
request issued during one `fetch_ohlcv_history` call to its outcome.  A
response is either a transport failure (timeout and friends), a non-2xx
status (`raise_for_status` raises), or a parsed JSON body.  Parsed output
rows are the Python lists `[ts_ms, open, high, low, close, volume]`,
modelled as `List ℚ` with the timestamp cast to `ℚ`. -/

/-- One item of a Binance klines body: `notRow` is skipped (`not isinstance
list or len < 6`); in a `row`, a `none` timestamp makes `int(item[0])`
raise, while `none` OHLCV fields are coerced to `0.0` by `_safe_float`. -/
inductive BItem
  | notRow
  | row (ts : Option Int) (o h l c v : Val)
deriving DecidableEq

/-- One item of a (flattened) BITDA body; dict-shaped and array-shaped items
parse identically, so they share one constructor.  `skip` is an item of
neither shape (dropped by the `else: continue` branch); a `none` timestamp
makes `int(...)` raise. -/
inductive BdItem
  | skip
  | row (ts : Option Int) (o h l c v : Val)
deriving DecidableEq

/-- Outcome of one HTTP request to Binance. -/
inductive BinResp
  | timeout
  | httpErr (code : Nat)
  | body (items : List BItem)

/-- Outcome of one HTTP request to BITDA: a body carries the JSON `code`
field (`none` models an absent code, treated as success). -/
inductive BitResp
  | timeout
  | httpErr (code : Nat)
  | body (code : Option Int) (items : List BdItem)

/-- Parse the Binance body rows (`_fetch_binance` loop). -/
def parseBinanceItems : List BItem → Except String (List (List ℚ))
  | [] => .ok []
  | .notRow :: rest => parseBinanceItems rest
  | .row none _ _ _ _ _ :: _ => .error "ValueError: invalid literal for int"
  | .row (some ts) o h l c v :: rest =>
    match parseBinanceItems rest with
    | .ok rows => .ok ([(ts : ℚ), to_f o, to_f h, to_f l, to_f c, to_f v] :: rows)
    | .error e => .error e

/-- Model of `_fetch_binance`: a single request, any failure propagates. -/
def fetch_binance (resp : BinResp) : Except String (List (List ℚ)) :=
  match resp with
  | .timeout => .error "Timeout: request timed out"
  | .httpErr code => .error ("HTTPError: " ++ toString code)
  | .body items => parseBinanceItems items

/-- Parse the BITDA body rows (`_do_request` loop). -/
def parseBitdaItems : List BdItem → Except String (List (List ℚ))
  | [] => .ok []
  | .skip :: rest => parseBitdaItems rest
  | .row none _ _ _ _ _ :: _ => .error "TypeError: int() argument"
  | .row (some ts) o h l c v :: rest =>
    match parseBitdaItems rest with
    | .ok rows => .ok ([(ts : ℚ), to_f o, to_f h, to_f l, to_f c, to_f v] :: rows)
    | .error e => .error e

/-- Is the BITDA JSON `code` accepted?  `code in (0, "0", None)`. -/
def bitdaCodeOk : Option Int → Bool
  | none => true
  | some c => c == 0

/-- One `_do_request` of `_fetch_bitda`: transport/status failure raises,
a rejected `code` raises `RuntimeError`, else the body is parsed. -/
def bitda_do_request (resp : BitResp) : Except String (List (List ℚ)) :=
  match resp with
  | .timeout => .error "Timeout: request timed out"
  | .httpErr code => .error ("HTTPError: " ++ toString code)
  | .body code items =>
    if bitdaCodeOk code then parseBitdaItems items
    else .error "RuntimeError: BITDA API error code"

/-- Model of `_fetch_bitda`: first request with the start/end window; on ANY
failure, or on an empty result, exactly one fallback request without the
window, whose outcome (success or failure) is final.  Returns the outcome
and the number of HTTP requests issued. -/
def fetch_bitda (oracle : Nat → BitResp) : Except String (List (List ℚ)) × Nat :=
  match bitda_do_request (oracle 0) with
  | .ok rows => if rows.isEmpty then (bitda_do_request (oracle 1), 2) else (.ok rows, 1)
  | .error _ => (bitda_do_request (oracle 1), 2)

/-- Model of Python `str.startswith` (char-wise prefix test). -/
def startswith (s pre : String) : Bool := pre.data.isPrefixOf s.data

/-- Model of `fetch_ohlcv_history`: dispatch on the platform id (unknown ids
raise `NotImplementedError`), catch every exception, return `None` plus a
recorded `last_error` message on failure.  Also reports the number of HTTP
requests issued. -/
def fetch_ohlcv_history (platformId : String) (binOracle : Nat → BinResp)
    (bitOracle : Nat → BitResp) :
    (Option (List (List ℚ)) × Option String) × Nat :=
  let dispatched : Except String (List (List ℚ)) × Nat :=
    if startswith platformId "BINANCE" then (fetch_binance (binOracle 0), 1)
    else if startswith platformId "BITDA" then fetch_bitda bitOracle
    else (.error "NotImplementedError: unknown platform", 0)
  match dispatched with
  | (.ok rows, n) => ((some rows, none), n)
  | (.error e, n) => ((none, some e), n)

/-! ### daily_report_kline_volume.py — summary chunker

`render_summary_chunks` is modelled over the per-symbol summary lines: each
symbol contributes one pre-formatted line plus its volume deviation `dev`
and tolerance `tol` (the code appends an EXCEED mark and front-sorts the
line when `abs(dev) > tol`).  Headers are parameters; the code reserves 600
characters of budget for the first chunk header and 200 for continuation
headers.  The default budget is `max_chars = 2500`. -/

/-- One symbol entry feeding `render_summary_chunks`: its formatted summary
line and the volume deviation / tolerance that classify it. -/
structure SymEntry where
  line : String
  dev : ℚ
  tol : ℚ

/-- The mark appended to a line whose volume deviation exceeds tolerance. -/
def exceedSuffix : String := " 【EXCEED】"

/-- The `(exceed_lines, normal_lines)` classification loop. -/
def classifyLines (entries : List SymEntry) : List String × List String :=
  entries.foldl
    (fun acc e =>
      if |e.dev| > e.tol then (acc.1 ++ [e.line ++ exceedSuffix], acc.2)
      else (acc.1, acc.2 ++ [e.line]))
    ([], [])

/-- Model of `lines_all = exceed_lines + normal_lines`. -/
def linesAll (entries : List SymEntry) : List String :=
  (classifyLines entries).1 ++ (classifyLines entries).2

/-- The accumulation loop of `render_summary_chunks`: `delta = len(line)+1`,
`reserve = 600` while no chunk is flushed yet else `200`; flush when the
budget would be exceeded and the accumulator is nonempty; a trailing
nonempty accumulator is flushed at the end. -/
def buildChunksGo (maxChars : Nat) :
    List String → List String → Nat → List (List String) → List (List String)
  | [], acc, _, chunks => if acc.isEmpty then chunks else chunks ++ [acc]
  | line :: rest, acc, accLen, chunks =>
    let delta := line.length + 1
    let reserve := if chunks.isEmpty then 600 else 200
    if maxChars < accLen + delta + reserve && !acc.isEmpty then
      buildChunksGo maxChars rest [line] delta (chunks ++ [acc])
    else
      buildChunksGo maxChars rest (acc ++ [line]) (accLen + delta) chunks

/-- The chunk line-lists produced by `render_summary_chunks`. -/
def buildChunks (maxChars : Nat) (ls : List String) : List (List String) :=
  buildChunksGo maxChars ls [] 0 []

/-- Model of `"\n".join(acc_lines)`. -/
def joinLines : List String → String
  | [] => ""
  | [l] => l
  | l :: rest => l ++ "\n" ++ joinLines rest

/-- The chunk bodies: `head + "\n".join(acc_lines)`, where the first flushed
chunk gets the full header and every later chunk the continuation header
(`is_first = (len(chunks) == 0)` at flush time). -/
def renderBodies (headerFull headerCont : String) : List (List String) → List String
  | [] => []
  | c :: cs => (headerFull ++ joinLines c) :: cs.map (fun c2 => headerCont ++ joinLines c2)

/-- The chunk bodies `render_summary_chunks` produces for a set of
per-symbol results. -/
def render_summary_chunks (maxChars : Nat) (headerFull headerCont : String)
    (entries : List SymEntry) : List String :=
  renderBodies headerFull headerCont (buildChunks maxChars (linesAll entries))

/-- Sum of `len(line) + 1` over a chunk. -/
def sumDelta (ls : List String) : Nat := (ls.map (fun l => l.length + 1)).sum

/-- The window key observed by a one-line evaluation: the `ts_ms` of the
most recent row (`latest_ts = rows[0]`). -/
def oneLineKey (rows : List Rec) : Option Int := rows.head?.map Rec.ts

/-! ## Theorems -/

/-- A latest-common key lies in both row sets' timestamp columns. -/
theorem mem_of_priceKey {rowsA rowsB : List Rec} {W : Int}
    (h : priceKey rowsA rowsB = some W) :
    W ∈ rowsA.map Rec.ts ∧ W ∈ rowsB.map Rec.ts := by
  have hmem : W ∈ commonTs rowsA rowsB := List.mem_of_getLast?_eq_some h
  unfold commonTs at hmem
  rw [List.mem_insertionSort] at hmem
  rw [List.mem_dedup] at hmem
  rw [List.mem_filter] at hmem
  refine ⟨hmem.1, ?_⟩
  have h2 := hmem.2
  simpa [List.contains] using h2

/-- A timestamp present in the column is found by the `next(...)` lookup. -/
theorem find?_ts_eq_some {rows : List Rec} {W : Int} (h : W ∈ rows.map Rec.ts) :
    ∃ r, rows.find? (fun r => r.ts == W) = some r := by
  rcases List.mem_map.mp h with ⟨r0, hr0, hts⟩
  cases hf : rows.find? (fun r => r.ts == W) with
  | none =>
    exfalso
    have hnone := List.find?_eq_none.mp hf r0 hr0
    apply hnone
    simp [hts]
  | some r => exact ⟨r, rfl⟩

/-- A row set whose timestamp column contains something is nonempty. -/
theorem isEmpty_false_of_mem_map {rows : List Rec} {W : Int}
    (h : W ∈ rows.map Rec.ts) : rows.isEmpty = false := by
  cases rows with
  | nil => simp at h
  | cons a l => rfl

/-- After a price evaluation that observes window key `W` (whatever its
outcome), `LAST_PRICE_ALERT_END_TS` holds `W`. -/
theorem price_lastEnd_after (t : PriceThresholds) {rowsA rowsB : List Rec}
    (cd : Int) (now : ℚ) (st : PriceState) {W : Int}
    (hk : priceKey rowsA rowsB = some W) :
    ((check_price_deviation true t rowsA rowsB cd now st).2).lastEnd = some W := by
  obtain ⟨hA, hB⟩ := mem_of_priceKey hk
  obtain ⟨ra, hra⟩ := find?_ts_eq_some hA
  obtain ⟨rb, hrb⟩ := find?_ts_eq_some hB
  have hAe := isEmpty_false_of_mem_map hA
  have hBe := isEmpty_false_of_mem_map hB
  unfold check_price_deviation
  simp only [hAe, hBe, hk, hra, hrb, Bool.not_true, Bool.false_eq_true,
    Bool.or_self, if_false]
  by_cases hle : st.lastEnd = some W
  · simp [hle]
  · rw [if_neg hle]
    split
    · rfl
    · split <;> rfl

/-- A price evaluation observing window key `W` while the state already
records `W` never notifies. -/
theorem price_suppressed (enabled : Bool) (t : PriceThresholds)
    {rowsA rowsB : List Rec} (cd : Int) (now : ℚ) {st : PriceState} {W : Int}
    (hk : priceKey rowsA rowsB = some W) (hst : st.lastEnd = some W) :
    (check_price_deviation enabled t rowsA rowsB cd now st).1 = false := by
  unfold check_price_deviation
  cases enabled with
  | false => rfl
  | true =>
    cases hE : rowsA.isEmpty || rowsB.isEmpty with
    | true => rfl
    | false =>
      simp only [hk, Bool.not_true, Bool.false_eq_true, if_false, if_pos hst]

/-- C1 (price part helper): two consecutive price evaluations observing the
same window key notify at most once. -/
theorem price_dedup (enabled : Bool) (t : PriceThresholds)
    {rA1 rB1 rA2 rB2 : List Rec} (cd1 cd2 : Int) (now1 now2 : ℚ)
    (st : PriceState) {W : Int}
    (hk1 : priceKey rA1 rB1 = some W) (hk2 : priceKey rA2 rB2 = some W) :
    ¬((check_price_deviation enabled t rA1 rB1 cd1 now1 st).1 = true ∧
      (check_price_deviation enabled t rA2 rB2 cd2 now2
        (check_price_deviation enabled t rA1 rB1 cd1 now1 st).2).1 = true) := by
  rintro ⟨h1, h2⟩
  cases enabled with
  | false => simp [check_price_deviation] at h1
  | true =>
    have hl : ((check_price_deviation true t rA1 rB1 cd1 now1 st).2).lastEnd = some W :=
      price_lastEnd_after t cd1 now1 st hk1
    have := price_suppressed true t cd2 now2 hk2 hl
    rw [this] at h2
    cases h2

/-- After a one-line evaluation whose run reaches the count threshold (a
breach), `LAST_ONE_LINE_ALERT_END_TS` holds the observed key. -/
theorem oneline_lastEnd_after (cth : Int) (eps : ℚ) (cd : Int)
    {rows : List Rec} (now : ℚ) (st : OneLineState) {W : Int}
    (hk : oneLineKey rows = some W)
    (hcnt : cth ≤ (oneLineRun eps rows : Int)) :
    ((check_one_line true cth eps cd rows now st).2).lastEnd = some W := by
  cases rows with
  | nil => simp [oneLineKey] at hk
  | cons r0 rest =>
    have hts : r0.ts = W := by simpa [oneLineKey] using hk
    unfold check_one_line
    simp only [Bool.not_true, Bool.false_eq_true, if_false, ge_iff_le,
      if_pos hcnt, hts]
    by_cases hle : st.lastEnd = some W
    · simp [hle]
    · rw [if_neg hle]
      split <;> rfl

/-- A one-line evaluation whose state already records the observed key never
notifies. -/
theorem oneline_suppressed (enabled : Bool) (cth : Int) (eps : ℚ) (cd : Int)
    {rows : List Rec} (now : ℚ) {st : OneLineState} {W : Int}
    (hk : oneLineKey rows = some W) (hst : st.lastEnd = some W) :
    (check_one_line enabled cth eps cd rows now st).1 = false := by
  cases rows with
  | nil => simp [oneLineKey] at hk
  | cons r0 rest =>
    have hts : r0.ts = W := by simpa [oneLineKey] using hk
    unfold check_one_line
    cases enabled with
    | false => rfl
    | true =>
      by_cases hcnt : cth ≤ (oneLineRun eps (r0 :: rest) : Int)
      · simp only [Bool.not_true, Bool.false_eq_true, if_false, ge_iff_le,
          if_pos hcnt, hts, if_pos hst]
      · simp only [Bool.not_true, Bool.false_eq_true, if_false, ge_iff_le,
          if_neg hcnt]

/-- C1 (one-line part helper): two consecutive one-line evaluations
observing the same window key, each with a breach, notify at most once. -/
theorem oneline_dedup (enabled : Bool) (cth : Int) (eps : ℚ) (cd1 cd2 : Int)
    {rows1 rows2 : List Rec} (now1 now2 : ℚ) (st : OneLineState) {W : Int}
    (hk1 : oneLineKey rows1 = some W) (hk2 : oneLineKey rows2 = some W)
    (hcnt1 : cth ≤ (oneLineRun eps rows1 : Int)) :
    ¬((check_one_line enabled cth eps cd1 rows1 now1 st).1 = true ∧
      (check_one_line enabled cth eps cd2 rows2 now2
        (check_one_line enabled cth eps cd1 rows1 now1 st).2).1 = true) := by
  rintro ⟨h1, h2⟩
  cases enabled with
  | false => simp [check_one_line] at h1
  | true =>
    have hl := oneline_lastEnd_after cth eps cd1 now1 st hk1 hcnt1
    have := oneline_suppressed true cth eps cd2 now2 hk2 hl
    rw [this] at h2
    cases h2

/-- The sorted common-timestamp list is no longer than either row set. -/
theorem volCommonTs_length_le (rowsA rowsB : List VRow) :
    (volCommonTs rowsA rowsB).length ≤ rowsA.length := by
  unfold volCommonTs
  rw [List.length_insertionSort]
  calc ((((rowsA.map VRow.ts).filter
        (fun t => (rowsB.map VRow.ts).contains t))).dedup).length
      ≤ ((rowsA.map VRow.ts).filter
        (fun t => (rowsB.map VRow.ts).contains t)).length :=
        (List.dedup_sublist _).length_le
    _ ≤ (rowsA.map VRow.ts).length := List.length_filter_le _ _
    _ = rowsA.length := List.length_map _ _

/-- Facts forced by a volume evaluation observing a window key: enough
common timestamps exist and the picked window has exactly `need` of them. -/
theorem pick_facts {rowsA rowsB : List VRow} {need : Nat} {W : Int}
    (h : (pick_latest_common_timestamps rowsA rowsB need).getLast? = some W) :
    need ≤ (volCommonTs rowsA rowsB).length ∧
    (pick_latest_common_timestamps rowsA rowsB need).length = need ∧
    (pick_latest_common_timestamps rowsA rowsB need).isEmpty = false := by
  unfold pick_latest_common_timestamps at h ⊢
  by_cases hE : (rowsA.isEmpty || rowsB.isEmpty) = true
  · rw [if_pos hE] at h; cases h
  · rw [if_neg hE] at h ⊢
    by_cases hlen : (volCommonTs rowsA rowsB).length < need
    · rw [if_pos hlen] at h; cases h
    · rw [if_neg hlen] at h ⊢
      have hle := Nat.le_of_not_lt hlen
      refine ⟨hle, ?_, ?_⟩
      · rw [List.length_drop]; omega
      · cases hd : (volCommonTs rowsA rowsB).drop
            ((volCommonTs rowsA rowsB).length - need) with
        | nil => rw [hd] at h; cases h
        | cons a l => rfl

/-- The sorted common-timestamp list is also no longer than the second row
set (its elements are distinct members of that set's timestamp column). -/
theorem volCommonTs_length_le_right (rowsA rowsB : List VRow) :
    (volCommonTs rowsA rowsB).length ≤ rowsB.length := by
  unfold volCommonTs
  rw [List.length_insertionSort]
  have hnd : ((((rowsA.map VRow.ts).filter
      (fun t => (rowsB.map VRow.ts).contains t))).dedup).Nodup :=
    List.nodup_dedup _
  have hsub : ((((rowsA.map VRow.ts).filter
      (fun t => (rowsB.map VRow.ts).contains t))).dedup) ⊆ rowsB.map VRow.ts := by
    intro x hx
    rw [List.mem_dedup] at hx
    have h2 := (List.mem_filter.mp hx).2
    simpa [List.contains] using h2
  calc ((((rowsA.map VRow.ts).filter
        (fun t => (rowsB.map VRow.ts).contains t))).dedup).length
      ≤ (rowsB.map VRow.ts).length :=
        (List.subperm_of_subset hnd hsub).length_le
    _ = rowsB.length := List.length_map _ _

/-- After a volume evaluation that observes window-end key `W` (whatever its
outcome), `_LAST_CHECKED_END_TS` holds `W`. -/
theorem vol_lastChecked_after (ratio tol : ℚ) (cd : Int) (w : Nat)
    {rowsA rowsB : List VRow} (nowS : Int) (st : VolState) {W : Int}
    (hk : volKey rowsA rowsB w = some W) :
    ((compare_volume_alert ratio tol cd w rowsA rowsB nowS st).2).lastChecked
      = some W := by
  unfold volKey at hk
  obtain ⟨hwle, hplen, hpne⟩ := pick_facts hk
  have hlA : ¬ rowsA.length < w :=
    Nat.not_lt.mpr (le_trans hwle (volCommonTs_length_le rowsA rowsB))
  have hlB : ¬ rowsB.length < w :=
    Nat.not_lt.mpr (le_trans hwle (volCommonTs_length_le_right rowsA rowsB))
  have hplt : ¬ (pick_latest_common_timestamps rowsA rowsB w).length < w := by
    rw [hplen]; exact Nat.lt_irrefl w
  unfold compare_volume_alert
  simp only [hlA, hlB, hpne, hplt, hk, decide_False, Bool.or_self,
    Bool.false_eq_true, if_false]
  by_cases hch : st.lastChecked = some W
  · simp [hch]
  · rw [if_neg hch]
    split
    · rfl
    · split
      · rfl
      · split <;> rfl

/-- A volume evaluation observing window-end key `W` while the state already
records `W` as checked never notifies. -/
theorem vol_suppressed (ratio tol : ℚ) (cd : Int) (w : Nat)
    {rowsA rowsB : List VRow} (nowS : Int) {st : VolState} {W : Int}
    (hk : volKey rowsA rowsB w = some W) (hst : st.lastChecked = some W) :
    (compare_volume_alert ratio tol cd w rowsA rowsB nowS st).1 = false := by
  unfold volKey at hk
  unfold compare_volume_alert
  dsimp only
  cases hg1 : (decide (rowsA.length < w) || decide (rowsB.length < w)) with
  | true => simp [hg1]
  | false =>
    cases hg2 : ((pick_latest_common_timestamps rowsA rowsB w).isEmpty ||
        decide ((pick_latest_common_timestamps rowsA rowsB w).length < w)) with
    | true => simp [hg1, hg2]
    | false => simp [hg1, hg2, hk, hst]

/-- C1 (volume part helper): two consecutive volume evaluations observing
the same window-end key notify at most once. -/
theorem vol_dedup (ratio tol : ℚ) (cd1 cd2 : Int) (w : Nat)
    {rA1 rB1 rA2 rB2 : List VRow} (now1 now2 : Int) (st : VolState) {W : Int}
    (hk1 : volKey rA1 rB1 w = some W) (hk2 : volKey rA2 rB2 w = some W) :
    ¬((compare_volume_alert ratio tol cd1 w rA1 rB1 now1 st).1 = true ∧
      (compare_volume_alert ratio tol cd2 w rA2 rB2 now2
        (compare_volume_alert ratio tol cd1 w rA1 rB1 now1 st).2).1 = true) := by
  rintro ⟨h1, h2⟩
  have hl := vol_lastChecked_after ratio tol cd1 w now1 st hk1
  have hs := vol_suppressed ratio tol cd2 w now2 hk2 hl
  rw [hs] at h2
  cases h2

/-- C1: for every symbol and alert kind, two consecutive evaluations that
observe the same window key (latest common candle-open for price, latest
candle-open for one_line, common-window end for volume) with a breach
present in both invoke the notifier at most once. -/
theorem c1_dedup_at_most_once :
    (∀ (enabled : Bool) (t : PriceThresholds) (rA1 rB1 rA2 rB2 : List Rec)
        (cd1 cd2 : Int) (now1 now2 : ℚ) (st : PriceState) (W : Int),
      priceKey rA1 rB1 = some W → priceKey rA2 rB2 = some W →
      priceBreachesOf rA1 rB1 t ≠ [] → priceBreachesOf rA2 rB2 t ≠ [] →
      ¬((check_price_deviation enabled t rA1 rB1 cd1 now1 st).1 = true ∧
        (check_price_deviation enabled t rA2 rB2 cd2 now2
          (check_price_deviation enabled t rA1 rB1 cd1 now1 st).2).1 = true)) ∧
    (∀ (enabled : Bool) (cth : Int) (eps : ℚ) (cd1 cd2 : Int)
        (rows1 rows2 : List Rec) (now1 now2 : ℚ) (st : OneLineState) (W : Int),
      oneLineKey rows1 = some W → oneLineKey rows2 = some W →
      cth ≤ (oneLineRun eps rows1 : Int) → cth ≤ (oneLineRun eps rows2 : Int) →
      ¬((check_one_line enabled cth eps cd1 rows1 now1 st).1 = true ∧
        (check_one_line enabled cth eps cd2 rows2 now2
          (check_one_line enabled cth eps cd1 rows1 now1 st).2).1 = true)) ∧
    (∀ (ratio tol : ℚ) (cd1 cd2 : Int) (w : Nat)
        (rA1 rB1 rA2 rB2 : List VRow) (now1 now2 : Int) (st : VolState) (W : Int),
      volKey rA1 rB1 w = some W → volKey rA2 rB2 w = some W →
      volWithinOf rA1 rB1 w ratio tol = false →
      volWithinOf rA2 rB2 w ratio tol = false →
      ¬((compare_volume_alert ratio tol cd1 w rA1 rB1 now1 st).1 = true ∧
        (compare_volume_alert ratio tol cd2 w rA2 rB2 now2
          (compare_volume_alert ratio tol cd1 w rA1 rB1 now1 st).2).1 = true)) := by
  refine ⟨?_, ?_, ?_⟩
  · intro enabled t rA1 rB1 rA2 rB2 cd1 cd2 now1 now2 st W hk1 hk2 _ _
    exact price_dedup enabled t cd1 cd2 now1 now2 st hk1 hk2
  · intro enabled cth eps cd1 cd2 rows1 rows2 now1 now2 st W hk1 hk2 hc1 _
    exact oneline_dedup enabled cth eps cd1 cd2 now1 now2 st hk1 hk2 hc1
  · intro ratio tol cd1 cd2 w rA1 rB1 rA2 rB2 now1 now2 st W hk1 hk2 _ _
    exact vol_dedup ratio tol cd1 cd2 w now1 now2 st hk1 hk2

theorem c1_witness :
    ¬((check_price_deviation true ⟨1/2, 1/2, 1/2, 1/2⟩
        [⟨60000, some 2, some 2, some 2, some 2⟩]
        [⟨60000, some 1, some 1, some 1, some 1⟩] 0 0 ⟨none, 0⟩).1 = true ∧
      (check_price_deviation true ⟨1/2, 1/2, 1/2, 1/2⟩
        [⟨60000, some 2, some 2, some 2, some 2⟩]
        [⟨60000, some 1, some 1, some 1, some 1⟩] 0 1
        (check_price_deviation true ⟨1/2, 1/2, 1/2, 1/2⟩
          [⟨60000, some 2, some 2, some 2, some 2⟩]
          [⟨60000, some 1, some 1, some 1, some 1⟩] 0 0 ⟨none, 0⟩).2).1 = true) ∧
    ¬((check_one_line true 1 0 0 [⟨60000, some 1, some 1, some 1, some 1⟩] 0
        ⟨none, 0⟩).1 = true ∧
      (check_one_line true 1 0 0 [⟨60000, some 1, some 1, some 1, some 1⟩] 1
        (check_one_line true 1 0 0 [⟨60000, some 1, some 1, some 1, some 1⟩] 0
          ⟨none, 0⟩).2).1 = true) ∧
    ¬((compare_volume_alert (1/5) (1/5) 0 1 [⟨60000, some 5⟩] [⟨60000, some 0⟩] 0
        ⟨none, none, none⟩).1 = true ∧
      (compare_volume_alert (1/5) (1/5) 0 1 [⟨60000, some 5⟩] [⟨60000, some 0⟩] 1
        (compare_volume_alert (1/5) (1/5) 0 1 [⟨60000, some 5⟩] [⟨60000, some 0⟩] 0
          ⟨none, none, none⟩).2).1 = true) := by
  refine ⟨?_, ?_, ?_⟩
  · refine c1_dedup_at_most_once.1 true ⟨1/2, 1/2, 1/2, 1/2⟩ _ _ _ _ 0 0 0 1
      ⟨none, 0⟩ 60000 (by decide) (by decide) ?_ ?_ <;>
    · simp [priceBreachesOf, priceKey, commonTs, fieldOver, rel, to_f, mkBreach,
        List.insertionSort, List.orderedInsert, priceBreaches]
      norm_num
  · refine c1_dedup_at_most_once.2.1 true 1 0 0 0 _ _ 0 1 ⟨none, 0⟩ 60000
      (by decide) (by decide) ?_ ?_ <;>
    · simp [oneLineRun, is_one_line]
  · exact c1_dedup_at_most_once.2.2 (1/5) (1/5) 0 0 1 _ _ _ _ 0 1
      ⟨none, none, none⟩ 60000 (by decide) (by decide)
      (by simp [volWithinOf, volWithin, sum_vol_on_timestamps,
            pick_latest_common_timestamps, volCommonTs, to_f,
            List.insertionSort, List.orderedInsert])
      (by simp [volWithinOf, volWithin, sum_vol_on_timestamps,
            pick_latest_common_timestamps, volCommonTs, to_f,
            List.insertionSort, List.orderedInsert])

/-- C2 counterexample: a one-line evaluation with no breach leaves the
per-symbol last-window-key state untouched (here it stays `none` instead of
being updated to the observed window key `60000`), refuting the claim for
the one_line kind. -/
theorem c2_counterexample :
    oneLineKey [⟨60000, some 1, some 2, some 0, some 1⟩] = some 60000 ∧
    (oneLineRun 0 [⟨60000, some 1, some 2, some 0, some 1⟩] : Int) < 4 ∧
    ¬(((check_one_line true 4 0 0 [⟨60000, some 1, some 2, some 0, some 1⟩] 0
        ⟨none, 0⟩).2).lastEnd = some 60000) := by
  refine ⟨by decide, ?_, ?_⟩
  · simp [oneLineRun, is_one_line]
    norm_num
  · have h : ((check_one_line true 4 0 0
        [⟨60000, some 1, some 2, some 0, some 1⟩] 0 ⟨none, 0⟩).2).lastEnd
        = none := by
      simp [check_one_line, oneLineRun, is_one_line, cooldown_ok]
      norm_num
    rw [h]
    intro hc
    cases hc

/-- C2 amended: a no-breach evaluation updates the last-window-key state to
the observed window `W` while leaving the cooldown timestamp unchanged for
the price and volume kinds; for the one_line kind a no-breach evaluation
leaves the gate state entirely unchanged (its dedup key is only consulted
and written inside the breach branch, so later windows are still evaluated
fresh). -/
theorem c2_amended :
    (∀ (t : PriceThresholds) (rowsA rowsB : List Rec) (cd : Int) (now : ℚ)
        (st : PriceState) (W : Int),
      priceKey rowsA rowsB = some W → st.lastEnd ≠ some W →
      priceBreachesOf rowsA rowsB t = [] →
      check_price_deviation true t rowsA rowsB cd now st
        = (false, ⟨some W, st.lastAlertTime⟩)) ∧
    (∀ (ratio tol : ℚ) (cd : Int) (w : Nat) (rowsA rowsB : List VRow)
        (nowS : Int) (st : VolState) (W : Int),
      volKey rowsA rowsB w = some W → st.lastChecked ≠ some W →
      volWithinOf rowsA rowsB w ratio tol = true →
      compare_volume_alert ratio tol cd w rowsA rowsB nowS st
        = (false, ⟨some W, st.lastAlerted, st.lastWallclock⟩)) ∧
    (∀ (enabled : Bool) (cth : Int) (eps : ℚ) (cd : Int) (rows : List Rec)
        (now : ℚ) (st : OneLineState),
      ¬(cth ≤ (oneLineRun eps rows : Int)) →
      check_one_line enabled cth eps cd rows now st = (false, st)) := by
  refine ⟨?_, ?_, ?_⟩
  · intro t rowsA rowsB cd now st W hk hne hbr
    obtain ⟨hA, hB⟩ := mem_of_priceKey hk
    obtain ⟨ra, hra⟩ := find?_ts_eq_some hA
    obtain ⟨rb, hrb⟩ := find?_ts_eq_some hB
    have hAe := isEmpty_false_of_mem_map hA
    have hBe := isEmpty_false_of_mem_map hB
    unfold priceBreachesOf at hbr
    simp only [hk, hra, hrb] at hbr
    unfold check_price_deviation
    simp only [hAe, hBe, hk, hra, hrb, Bool.not_true, Bool.false_eq_true,
      Bool.or_self, if_false, if_neg hne, hbr, List.isEmpty_nil, if_true]
  · intro ratio tol cd w rowsA rowsB nowS st W hk hne hw
    unfold volKey at hk
    obtain ⟨hwle, hplen, hpne⟩ := pick_facts hk
    have hlA : ¬ rowsA.length < w :=
      Nat.not_lt.mpr (le_trans hwle (volCommonTs_length_le rowsA rowsB))
    have hlB : ¬ rowsB.length < w :=
      Nat.not_lt.mpr (le_trans hwle (volCommonTs_length_le_right rowsA rowsB))
    have hplt : ¬ (pick_latest_common_timestamps rowsA rowsB w).length < w := by
      rw [hplen]; exact Nat.lt_irrefl w
    unfold volWithinOf at hw
    unfold compare_volume_alert
    simp only [hlA, hlB, hpne, hplt, hk, decide_False, Bool.or_self,
      Bool.false_eq_true, if_false, if_neg hne, hw, if_true]
  · intro enabled cth eps cd rows now st hcnt
    unfold check_one_line
    cases enabled with
    | false => rfl
    | true =>
      cases rows with
      | nil => rfl
      | cons r0 rest =>
        simp only [Bool.not_true, Bool.false_eq_true, if_false, ge_iff_le,
          if_neg hcnt]

theorem c2_amended_witness :
    check_price_deviation true ⟨1/2, 1/2, 1/2, 1/2⟩
        [⟨60000, some 1, some 1, some 1, some 1⟩]
        [⟨60000, some 1, some 1, some 1, some 1⟩] 0 0 ⟨none, 7⟩
      = (false, ⟨some 60000, 7⟩) ∧
    compare_volume_alert (1/5) (1/5) 0 1 [⟨60000, some 1⟩] [⟨60000, some 5⟩] 0
        ⟨none, none, none⟩
      = (false, ⟨some 60000, none, none⟩) ∧
    check_one_line true 4 0 0 [⟨60000, some 1, some 2, some 0, some 1⟩] 0
        ⟨none, 0⟩
      = (false, ⟨none, 0⟩) := by
  refine ⟨?_, ?_, ?_⟩
  · exact c2_amended.1 ⟨1/2, 1/2, 1/2, 1/2⟩ _ _ 0 0 ⟨none, 7⟩ 60000 (by decide)
      (by decide)
      (by simp [priceBreachesOf, priceKey, commonTs, fieldOver, rel, to_f,
            List.insertionSort, List.orderedInsert, priceBreaches])
  · exact c2_amended.2.1 (1/5) (1/5) 0 1 _ _ 0 ⟨none, none, none⟩ 60000
      (by decide) (by decide)
      (by simp [volWithinOf, volWithin, sum_vol_on_timestamps,
            pick_latest_common_timestamps, volCommonTs, to_f,
            List.insertionSort, List.orderedInsert])
  · exact c2_amended.2.2 true 4 0 0 _ 0 ⟨none, 0⟩
      (by simp [oneLineRun, is_one_line]; norm_num)

/-- C4: in the volume-ratio check, whenever `target_ratio * B_sum = 0` the
window is within tolerance iff `A_sum = 0`, for every tolerance value. -/
theorem c4_target_zero (targetRatio tolerance Asum Bsum : ℚ)
    (h : targetRatio * Bsum = 0) :
    volWithin targetRatio tolerance Asum Bsum = true ↔ Asum = 0 := by
  simp [volWithin, h]

theorem c4_witness :
    volWithin (1/5) (1/5) 5 0 = false ∧ volWithin (1/5) (1/5) 0 0 = true := by
  constructor
  · have h := c4_target_zero (1/5) (1/5) 5 0 (by norm_num)
    rcases Bool.eq_false_or_eq_true (volWithin (1/5) (1/5) 5 0) with hb | hb
    · exact absurd (h.mp hb) (by norm_num)
    · exact hb
  · exact (c4_target_zero (1/5) (1/5) 0 0 (by norm_num)).mpr rfl

/-- C5: for a nonzero benchmark value, both the live price check and the
daily-report check record a breach iff `abs(a - b) / abs(b)` is strictly
greater than the configured threshold; exact equality is not a breach. -/
theorem c5_strict_threshold (a b thr : ℚ) (hb : b ≠ 0) :
    (fieldOver (some a) (some b) thr = true ↔ |a - b| / |b| > thr) ∧
    (dailyCheckCounts (some a) (some b) thr = true ↔ |a - b| / |b| > thr) ∧
    (|a - b| / |b| = thr →
      fieldOver (some a) (some b) thr = false ∧
      dailyCheckCounts (some a) (some b) thr = false) := by
  have habs : |rel a b| = |a - b| / |b| := by
    unfold rel; rw [if_neg hb, abs_div]
  refine ⟨?_, ?_, ?_⟩
  · simp [fieldOver, to_f, habs]
  · simp [dailyCheckCounts, to_f, hb]
  · intro he
    constructor
    · simp [fieldOver, to_f, habs, he]
    · simp [dailyCheckCounts, to_f, hb, he]

theorem c5_witness :
    fieldOver (some 101) (some 100) (1/1000) = true ∧
    fieldOver (some 101) (some 100) (1/100) = false := by
  constructor
  · exact (c5_strict_threshold 101 100 (1/1000) (by norm_num)).1.mpr (by norm_num)
  · exact ((c5_strict_threshold 101 100 (1/100) (by norm_num)).2.2 (by norm_num)).1

/-- C6: `_normalize_candle_start` is an idempotent projection onto the
candle grid and never exceeds its input, for every positive interval. -/
theorem c6_align (t I : Int) (hI : 0 < I) :
    normalize_candle_start (normalize_candle_start (some t) I) I
      = normalize_candle_start (some t) I ∧
    ∀ u : Int, normalize_candle_start (some t) I = some u → u ≤ t := by
  have hne : I ≠ 0 := Int.ne_of_gt hI
  have hle : 0 ≤ I := Int.le_of_lt hI
  constructor
  · show some ((((t.fdiv I) * I).fdiv I) * I) = some ((t.fdiv I) * I)
    rw [Int.fdiv_eq_ediv _ hle, Int.mul_ediv_cancel _ hne]
  · intro u hu
    have hu' : (t.fdiv I) * I = u := by
      simpa [normalize_candle_start] using hu
    rw [← hu', Int.fdiv_eq_ediv _ hle]
    exact Int.ediv_mul_le _ hne

theorem c6_witness :
    normalize_candle_start (normalize_candle_start (some 125) 60) 60
      = normalize_candle_start (some 125) 60 ∧ (120 : Int) ≤ 125 :=
  ⟨(c6_align 125 60 (by decide)).1, (c6_align 125 60 (by decide)).2 120 (by decide)⟩

/-- C7 counterexample: with a zero benchmark value the live price check does
NOT skip the field; it evaluates the relative deviation as `0` and compares,
so a (reachable) negative configured threshold records a breach, refuting
the claim that a zero benchmark never records a breach. -/
theorem c7_counterexample :
    priceBreaches ⟨0, some 5, some 5, some 5, some 5⟩
        ⟨0, some 0, some 0, some 0, some 0⟩ ⟨-1, -1, -1, -1⟩ ≠ [] := by
  simp [priceBreaches, fieldOver, rel, to_f]

/-- C7 amended: with a zero benchmark value no division is performed (the
`rel` guard returns `0`), the live check records no breach provided the
configured threshold is nonnegative, and the daily-report check skips the
field outright for every threshold. -/
theorem c7_amended :
    (∀ (a : Val) (thr : ℚ), 0 ≤ thr → fieldOver a (some 0) thr = false) ∧
    (∀ (aV bV : Val) (thr : ℚ), to_f bV = 0 → dailyCheckCounts aV bV thr = false) ∧
    (∀ x : ℚ, rel x 0 = 0) := by
  refine ⟨?_, ?_, ?_⟩
  · intro a thr h
    simp only [fieldOver, to_f, rel, Option.getD_some, if_pos rfl, abs_zero,
      decide_eq_false_iff_not, not_lt]
    exact h
  · intro aV bV thr h
    simp [dailyCheckCounts, h]
  · intro x
    simp [rel]

theorem c7_amended_witness :
    fieldOver (some 7) (some 0) (1/100) = false ∧
    dailyCheckCounts (some 7) (some 0) (1/100) = false ∧
    rel 7 0 = 0 :=
  ⟨c7_amended.1 (some 7) (1/100) (by norm_num),
   c7_amended.2.1 (some 7) (some 0) (1/100) rfl,
   c7_amended.2.2 7⟩

/-- C10 counterexample: an unparsable benchmark value is coerced to `0.0`
and the relative deviation evaluates to `0`, but with a (reachable)
negative configured threshold the field still breaches, refuting the claim
that it can never breach. -/
theorem c10_counterexample : fieldOver (some 5) none (-1/2) = true := by
  simp [fieldOver, rel, to_f]
  norm_num

/-- C10 amended: unparsable values are coerced to `0.0`; an unparsable
benchmark yields relative deviation `0` and cannot breach for any
nonnegative threshold; an unparsable test value against a nonzero benchmark
yields relative deviation `1`, a breach exactly for thresholds below 1. -/
theorem c10_amended :
    (to_f none = 0) ∧
    (∀ (a : Val) (thr : ℚ), 0 ≤ thr → fieldOver a none thr = false) ∧
    (∀ (b thr : ℚ), b ≠ 0 → (fieldOver none (some b) thr = true ↔ thr < 1)) := by
  refine ⟨rfl, ?_, ?_⟩
  · intro a thr h
    simp only [fieldOver, to_f, rel, Option.getD_none, Option.getD_some, if_pos rfl,
      abs_zero, decide_eq_false_iff_not, not_lt]
    exact h
  · intro b thr hb
    have h1 : rel 0 b = -1 := by
      unfold rel
      rw [if_neg hb, zero_sub, neg_div, div_self hb]
    simp [fieldOver, to_f, h1]

theorem c10_amended_witness :
    to_f none = 0 ∧ fieldOver (some 5) none (3/100) = false ∧
    fieldOver none (some 2) (1/2) = true :=
  ⟨c10_amended.1,
   c10_amended.2.1 (some 5) (3/100) (by norm_num),
   (c10_amended.2.2 2 (1/2) (by norm_num)).mpr (by norm_num)⟩

/-- Every row a successful Binance parse produces has exactly 6 elements. -/
theorem parseBinanceItems_rowLen :
    ∀ (items : List BItem) (rows : List (List ℚ)),
      parseBinanceItems items = .ok rows → ∀ r ∈ rows, r.length = 6 := by
  intro items
  induction items with
  | nil =>
    intro rows h r hr
    simp only [parseBinanceItems] at h
    cases h
    simp at hr
  | cons it rest ih =>
    intro rows h r hr
    cases it with
    | notRow => exact ih rows h r hr
    | row ts o hi lo cl vo =>
      cases ts with
      | none => simp [parseBinanceItems] at h
      | some t =>
        simp only [parseBinanceItems] at h
        cases hrec : parseBinanceItems rest with
        | ok rows0 =>
          rw [hrec] at h
          cases h
          rcases List.mem_cons.mp hr with h6 | h6
          · subst h6; rfl
          · exact ih rows0 hrec r h6
        | error e => rw [hrec] at h; cases h

/-- Every row a successful BITDA body parse produces has exactly 6
elements. -/
theorem parseBitdaItems_rowLen :
    ∀ (items : List BdItem) (rows : List (List ℚ)),
      parseBitdaItems items = .ok rows → ∀ r ∈ rows, r.length = 6 := by
  intro items
  induction items with
  | nil =>
    intro rows h r hr
    simp only [parseBitdaItems] at h
    cases h
    simp at hr
  | cons it rest ih =>
    intro rows h r hr
    cases it with
    | skip => exact ih rows h r hr
    | row ts o hi lo cl vo =>
      cases ts with
      | none => simp [parseBitdaItems] at h
      | some t =>
        simp only [parseBitdaItems] at h
        cases hrec : parseBitdaItems rest with
        | ok rows0 =>
          rw [hrec] at h
          cases h
          rcases List.mem_cons.mp hr with h6 | h6
          · subst h6; rfl
          · exact ih rows0 hrec r h6
        | error e => rw [hrec] at h; cases h

/-- Rows of a successful `_do_request` are 6-element rows. -/
theorem bitda_do_request_rowLen (resp : BitResp) (rows : List (List ℚ))
    (h : bitda_do_request resp = .ok rows) : ∀ r ∈ rows, r.length = 6 := by
  cases resp with
  | timeout => cases h
  | httpErr code => cases h
  | body code items =>
    simp only [bitda_do_request] at h
    by_cases hc : bitdaCodeOk code = true
    · rw [if_pos hc] at h
      exact parseBitdaItems_rowLen items rows h
    · rw [if_neg hc] at h
      cases h

/-- Rows of a successful `_fetch_binance` are 6-element rows. -/
theorem fetch_binance_rowLen (resp : BinResp) (rows : List (List ℚ))
    (h : fetch_binance resp = .ok rows) : ∀ r ∈ rows, r.length = 6 := by
  cases resp with
  | timeout => cases h
  | httpErr code => cases h
  | body items => exact parseBinanceItems_rowLen items rows h

/-- Rows of a successful `_fetch_bitda` are 6-element rows. -/
theorem fetch_bitda_rowLen (oracle : Nat → BitResp) (rows : List (List ℚ))
    (h : (fetch_bitda oracle).1 = .ok rows) : ∀ r ∈ rows, r.length = 6 := by
  unfold fetch_bitda at h
  cases h0 : bitda_do_request (oracle 0) with
  | ok rows0 =>
    rw [h0] at h
    dsimp only at h
    by_cases he : rows0.isEmpty = true
    · rw [if_pos he] at h
      exact bitda_do_request_rowLen (oracle 1) rows h
    · rw [if_neg he] at h
      cases h
      exact bitda_do_request_rowLen (oracle 0) rows h0
  | error e =>
    rw [h0] at h
    exact bitda_do_request_rowLen (oracle 1) rows h

/-- C9: `fetch_ohlcv_history` never propagates an error to its caller: for
every platform id and every modelled outcome of the remote requests
(timeout, HTTP error status, malformed body, API error code, unknown
platform) it either returns `None` with a message recorded in `last_error`,
or returns a list of 6-element rows with `last_error` cleared. -/
theorem c9_total (platformId : String) (binOracle : Nat → BinResp)
    (bitOracle : Nat → BitResp) :
    ((fetch_ohlcv_history platformId binOracle bitOracle).1.1 = none ∧
      ∃ msg, (fetch_ohlcv_history platformId binOracle bitOracle).1.2 = some msg) ∨
    (∃ rows, (fetch_ohlcv_history platformId binOracle bitOracle).1 = (some rows, none) ∧
      ∀ r ∈ rows, r.length = 6) := by
  unfold fetch_ohlcv_history
  by_cases hbin : startswith platformId "BINANCE" = true
  · rw [if_pos hbin]
    cases hf : fetch_binance (binOracle 0) with
    | ok rows => exact Or.inr ⟨rows, rfl, fetch_binance_rowLen _ rows hf⟩
    | error e => exact Or.inl ⟨rfl, e, rfl⟩
  · rw [if_neg hbin]
    by_cases hbit : startswith platformId "BITDA" = true
    · rw [if_pos hbit]
      cases hf : (fetch_bitda bitOracle).1 with
      | ok rows =>
        have hpair : fetch_bitda bitOracle = (.ok rows, (fetch_bitda bitOracle).2) := by
          rw [← hf]
        rw [hpair]
        exact Or.inr ⟨rows, rfl, fetch_bitda_rowLen bitOracle rows hf⟩
      | error e =>
        have hpair : fetch_bitda bitOracle = (.error e, (fetch_bitda bitOracle).2) := by
          rw [← hf]
        rw [hpair]
        exact Or.inl ⟨rfl, e, rfl⟩
    · rw [if_neg hbit]
      exact Or.inl ⟨rfl, _, rfl⟩

theorem c9_witness :
    ((fetch_ohlcv_history "BINANCE_FUTURES" (fun _ => BinResp.timeout)
        (fun _ => BitResp.timeout)).1.1 = none ∧
      ∃ msg, (fetch_ohlcv_history "BINANCE_FUTURES" (fun _ => BinResp.timeout)
        (fun _ => BitResp.timeout)).1.2 = some msg) ∨
    (∃ rows, (fetch_ohlcv_history "BINANCE_FUTURES" (fun _ => BinResp.timeout)
        (fun _ => BitResp.timeout)).1 = (some rows, none) ∧
      ∀ r ∈ rows, r.length = 6) :=
  c9_total "BINANCE_FUTURES" (fun _ => BinResp.timeout) (fun _ => BitResp.timeout)

/-- C3 counterexample: on a timeout (a transient failure) the BINANCE fetch
issues exactly one request — it never retries — and on HTTP 404 (a
non-retryable failure) the BITDA fetch issues a second request — it does
not fail immediately.  Both refute the claimed retry policy. -/
theorem c3_counterexample :
    (fetch_ohlcv_history "BINANCE_FUTURES" (fun _ => BinResp.timeout)
      (fun _ => BitResp.timeout)).2 = 1 ∧
    (fetch_ohlcv_history "BITDA_FUTURES" (fun _ => BinResp.timeout)
      (fun _ => BitResp.httpErr 404)).2 = 2 := by
  constructor <;> rfl

/-- C3 amended: there is no exponential-backoff retry loop and no
distinction between transient and non-retryable failures.  A BINANCE fetch
issues exactly one request whatever the outcome; a BITDA fetch issues at
most two, falling back exactly once — on ANY failure of the windowed
request, regardless of its class — to a request without the start window,
whose outcome is final. -/
theorem c3_amended (binOracle : Nat → BinResp) (bitOracle : Nat → BitResp) :
    (∀ pid : String, startswith pid "BINANCE" = true →
      (fetch_ohlcv_history pid binOracle bitOracle).2 = 1) ∧
    (fetch_bitda bitOracle).2 ≤ 2 ∧
    (∀ msg, bitda_do_request (bitOracle 0) = .error msg →
      (fetch_bitda bitOracle).1 = bitda_do_request (bitOracle 1) ∧
      (fetch_bitda bitOracle).2 = 2) := by
  refine ⟨?_, ?_, ?_⟩
  · intro pid hpid
    unfold fetch_ohlcv_history
    rw [if_pos hpid]
    cases fetch_binance (binOracle 0) <;> rfl
  · unfold fetch_bitda
    cases bitda_do_request (bitOracle 0) with
    | ok rows =>
      dsimp only
      by_cases he : rows.isEmpty = true
      · rw [if_pos he]
      · rw [if_neg he]
        exact Nat.le_succ 1
    | error e => exact Nat.le_refl 2
  · intro msg h
    unfold fetch_bitda
    rw [h]
    exact ⟨rfl, rfl⟩

/-- The header-space reserve applied while accumulating on top of a given
flushed-chunk list: 600 characters before the first flush, 200 after. -/
def reserveFor (chunks : List (List String)) : Nat :=
  if chunks.isEmpty then 600 else 200

/-- Size discipline of the flushed chunks: every chunk is nonempty, the
first fits the budget with 600 characters spare, later ones with 200. -/
def ChunksBounded (m : Nat) : List (List String) → Prop
  | [] => True
  | c :: cs => (c ≠ [] ∧ sumDelta c + 600 ≤ m) ∧
      ∀ c2 ∈ cs, c2 ≠ [] ∧ sumDelta c2 + 200 ≤ m

/-- Joined line text is one shorter than the summed `len + 1` deltas. -/
theorem joinLines_length : ∀ ls : List String, ls ≠ [] →
    (joinLines ls).length + 1 = sumDelta ls
  | [], h => absurd rfl h
  | [l], _ => by simp [joinLines, sumDelta]
  | l :: l2 :: rest, _ => by
    have ih := joinLines_length (l2 :: rest) (by simp)
    have hnl : ("\n" : String).length = 1 := rfl
    simp only [joinLines, sumDelta, List.map_cons, List.sum_cons] at *
    rw [String.length_append, String.length_append, hnl]
    omega

/-- Value of `sumDelta` over a snoc. -/
theorem sumDelta_append_single (acc : List String) (line : String) :
    sumDelta (acc ++ [line]) = sumDelta acc + (line.length + 1) := by
  simp [sumDelta]

/-- The chunker loop only partitions: flattening its output recovers the
flushed chunks, the accumulator, and the remaining lines in order. -/
theorem buildChunksGo_join (m : Nat) :
    ∀ (rest acc : List String) (accLen : Nat) (chunks : List (List String)),
      (buildChunksGo m rest acc accLen chunks).flatten
        = chunks.flatten ++ acc ++ rest := by
  intro rest
  induction rest with
  | nil =>
    intro acc accLen chunks
    simp only [buildChunksGo]
    by_cases h : acc.isEmpty = true
    · rw [if_pos h]
      have hnil : acc = [] := by
        cases acc with
        | nil => rfl
        | cons a l => cases h
      simp [hnil]
    · rw [if_neg h]
      simp
  | cons line rest ih =>
    intro acc accLen chunks
    simp only [buildChunksGo]
    split <;> split <;> (rw [ih]; simp)

/-- Appending a nonempty chunk that fits the current reserve preserves the
bound discipline. -/
theorem chunksBounded_append (m : Nat) (chunks : List (List String))
    (c : List String) (hb : ChunksBounded m chunks) (hne : c ≠ [])
    (hle : sumDelta c + reserveFor chunks ≤ m) :
    ChunksBounded m (chunks ++ [c]) := by
  cases chunks with
  | nil =>
    refine ⟨⟨hne, ?_⟩, by simp⟩
    simpa [reserveFor] using hle
  | cons c0 cs =>
    refine ⟨hb.1, ?_⟩
    intro c2 hc2
    rcases List.mem_append.mp hc2 with h1 | h1
    · exact hb.2 c2 h1
    · have : c2 = c := by simpa using h1
      subst this
      refine ⟨hne, ?_⟩
      simpa [reserveFor] using hle

/-- Loop invariant of the chunker: if every pending line fits the budget
with the first-chunk reserve to spare and the accumulator fits the current
reserve, all flushed chunks keep the bound discipline. -/
theorem buildChunksGo_bounded (m : Nat) :
    ∀ (rest : List String), (∀ l ∈ rest, l.length + 601 ≤ m) →
    ∀ (acc : List String) (chunks : List (List String)),
      (acc = [] ∨ sumDelta acc + reserveFor chunks ≤ m) →
      ChunksBounded m chunks →
      ChunksBounded m (buildChunksGo m rest acc (sumDelta acc) chunks) := by
  intro rest
  induction rest with
  | nil =>
    intro _ acc chunks hacc hb
    simp only [buildChunksGo]
    by_cases h : acc.isEmpty = true
    · rw [if_pos h]
      exact hb
    · rw [if_neg h]
      have hne : acc ≠ [] := by
        cases acc with
        | nil => cases h rfl
        | cons a l => simp
      rcases hacc with h0 | h0
      · exact absurd h0 hne
      · exact chunksBounded_append m chunks acc hb hne h0
  | cons line rest ih =>
    intro hrest acc chunks hacc hb
    have hline : line.length + 601 ≤ m := hrest line (by simp)
    have hrest' : ∀ l ∈ rest, l.length + 601 ≤ m :=
      fun l hl => hrest l (by simp [hl])
    have hflush : acc ≠ [] → sumDelta acc + reserveFor chunks ≤ m →
        ChunksBounded m (buildChunksGo m rest [line] (line.length + 1)
          (chunks ++ [acc])) := by
      intro hne h0
      have hstep : ChunksBounded m (chunks ++ [acc]) :=
        chunksBounded_append m chunks acc hb hne h0
      have hacc' : ([line] = [] ∨
          sumDelta [line] + reserveFor (chunks ++ [acc]) ≤ m) := by
        right
        have hr : reserveFor (chunks ++ [acc]) = 200 := by
          simp [reserveFor]
        rw [hr]
        have hs : sumDelta [line] = line.length + 1 := by
          simp [sumDelta]
        rw [hs]
        omega
      have hgo := ih hrest' [line] (chunks ++ [acc]) hacc' hstep
      have hs : sumDelta [line] = line.length + 1 := by
        simp [sumDelta]
      rwa [hs] at hgo
    have haccum : sumDelta (acc ++ [line]) + reserveFor chunks ≤ m →
        ChunksBounded m (buildChunksGo m rest (acc ++ [line])
          (sumDelta acc + (line.length + 1)) chunks) := by
      intro h0
      have hgo := ih hrest' (acc ++ [line]) chunks (Or.inr h0) hb
      rwa [sumDelta_append_single] at hgo
    have hres600 : reserveFor chunks ≤ 600 := by
      unfold reserveFor
      split <;> omega
    simp only [buildChunksGo]
    split
    case isTrue hchunks =>
      have hrsv : reserveFor chunks = 600 := by
        simp [reserveFor, hchunks]
      split
      case isTrue hcond =>
        rw [Bool.and_eq_true] at hcond
        have hne : acc ≠ [] := by
          have h2 := hcond.2
          cases acc with
          | nil => simp at h2
          | cons a l => simp
        rcases hacc with h0 | h0
        · exact absurd h0 hne
        · exact hflush hne h0
      case isFalse hcond =>
        rw [Bool.and_eq_true, not_and_or] at hcond
        apply haccum
        rw [sumDelta_append_single, hrsv]
        rcases hcond with hc | hc
        · have hc2 : ¬ m < sumDelta acc + (line.length + 1) + 600 := by
            intro hlt
            exact hc (decide_eq_true hlt)
          omega
        · have hnil : acc = [] := by
            cases acc with
            | nil => rfl
            | cons a l => simp at hc
          subst hnil
          have hz : sumDelta ([] : List String) = 0 := rfl
          omega
    case isFalse hchunks =>
      have hrsv : reserveFor chunks = 200 := by
        simp [reserveFor]
        intro hc
        exact absurd (by simp [hc]) hchunks
      split
      case isTrue hcond =>
        rw [Bool.and_eq_true] at hcond
        have hne : acc ≠ [] := by
          have h2 := hcond.2
          cases acc with
          | nil => simp at h2
          | cons a l => simp
        rcases hacc with h0 | h0
        · exact absurd h0 hne
        · exact hflush hne h0
      case isFalse hcond =>
        rw [Bool.and_eq_true, not_and_or] at hcond
        apply haccum
        rw [sumDelta_append_single, hrsv]
        rcases hcond with hc | hc
        · have hc2 : ¬ m < sumDelta acc + (line.length + 1) + 200 := by
            intro hlt
            exact hc (decide_eq_true hlt)
          omega
        · have hnil : acc = [] := by
            cases acc with
            | nil => rfl
            | cons a l => simp at hc
          subst hnil
          have hz : sumDelta ([] : List String) = 0 := rfl
          omega

/-- Every rendered body of a bound-disciplined chunk list fits the budget,
given headers that fit their reserves. -/
theorem renderBodies_bounded (m : Nat) (hf hc : String)
    (chunks : List (List String)) (hhf : hf.length ≤ 600)
    (hhc : hc.length ≤ 200) (hb : ChunksBounded m chunks) :
    ∀ b ∈ renderBodies hf hc chunks, b.length ≤ m := by
  cases chunks with
  | nil =>
    intro b hb2
    simp [renderBodies] at hb2
  | cons c cs =>
    intro b hmem
    simp only [renderBodies, List.mem_cons] at hmem
    rcases hmem with rfl | hmem
    · have hj := joinLines_length c hb.1.1
      rw [String.length_append]
      have hcb := hb.1.2
      omega
    · rcases List.mem_map.mp hmem with ⟨c2, hc2, rfl⟩
      have hcc := hb.2 c2 hc2
      have hj := joinLines_length c2 hcc.1
      rw [String.length_append]
      have hcb := hcc.2
      omega

/-- A sample first-chunk header of the shape the code builds (dates and
counts), used to instantiate the chunker claims. -/
def headerFullSample : String :=
  "时间：2025-01-01 00:00 ~ 2025-01-02 00:00 UTC\n标的数：1\n四价越阈总次数：0\n成交量超阈标的数：0\n\n"

/-- The continuation header the code uses for later chunks. -/
def headerContSample : String := "（续）以下为其余标的统计：\n\n"

/-- C8 counterexample: with the default budget `max_chars = 2500`, a single
symbol whose summary line is 3000 characters long produces a chunk whose
body exceeds the budget (an oversized line is appended unconditionally when
the accumulator is empty), refuting the claimed universal size bound. -/
theorem c8_counterexample :
    ∃ b ∈ render_summary_chunks 2500 headerFullSample headerContSample
        [⟨String.mk (List.replicate 3000 'x'), 0, 1⟩], 2500 < b.length := by
  have hch : render_summary_chunks 2500 headerFullSample headerContSample
      [⟨String.mk (List.replicate 3000 'x'), 0, 1⟩]
      = [headerFullSample ++ String.mk (List.replicate 3000 'x')] := by
    have hcl : classifyLines [⟨String.mk (List.replicate 3000 'x'), 0, 1⟩]
        = ([], [String.mk (List.replicate 3000 'x')]) := by
      simp [classifyLines]
    simp [render_summary_chunks, linesAll, hcl, buildChunks, buildChunksGo,
      renderBodies, joinLines]
  rw [hch]
  refine ⟨headerFullSample ++ String.mk (List.replicate 3000 'x'), by simp, ?_⟩
  rw [String.length_append]
  have h3 : (String.mk (List.replicate 3000 'x')).length = 3000 := by
    show (List.replicate 3000 'x').length = 3000
    simp only [List.length_replicate]
  rw [h3]
  omega

/-- C8 amended: provided every candidate summary line fits the budget with
the 600-character first-header reserve to spare (true of real symbol lines
under the 2500 default) and the headers fit their reserved 600/200
characters, every chunk body stays within `max_chars`; and unconditionally
the concatenation of all chunks lists every exceeding symbol's line before
every normal symbol's line. -/
theorem c8_amended (m : Nat) (headerFull headerCont : String)
    (entries : List SymEntry)
    (hhf : headerFull.length ≤ 600) (hhc : headerCont.length ≤ 200)
    (hl : ∀ l ∈ linesAll entries, l.length + 601 ≤ m) :
    (∀ b ∈ render_summary_chunks m headerFull headerCont entries,
      b.length ≤ m) ∧
    (buildChunks m (linesAll entries)).flatten
      = (classifyLines entries).1 ++ (classifyLines entries).2 := by
  constructor
  · have hbd : ChunksBounded m (buildChunks m (linesAll entries)) := by
      unfold buildChunks
      have h0 : (0 : Nat) = sumDelta [] := rfl
      rw [h0]
      exact buildChunksGo_bounded m _ hl [] [] (Or.inl rfl) trivial
    exact renderBodies_bounded m headerFull headerCont _ hhf hhc hbd
  · unfold buildChunks
    rw [buildChunksGo_join]
    simp [linesAll]

theorem c8_amended_witness :
    (∀ b ∈ render_summary_chunks 2500 headerFullSample headerContSample
        [⟨"[0] BTCUSDT: O=0 H=0 L=0 C=0 | Vol dev=+0.00% (r=0.20)", 0, 1⟩],
      b.length ≤ 2500) ∧
    (buildChunks 2500 (linesAll
        [⟨"[0] BTCUSDT: O=0 H=0 L=0 C=0 | Vol dev=+0.00% (r=0.20)", 0, 1⟩])).flatten
      = (classifyLines
          [⟨"[0] BTCUSDT: O=0 H=0 L=0 C=0 | Vol dev=+0.00% (r=0.20)", 0, 1⟩]).1
        ++ (classifyLines
          [⟨"[0] BTCUSDT: O=0 H=0 L=0 C=0 | Vol dev=+0.00% (r=0.20)", 0, 1⟩]).2 :=
  c8_amended 2500 headerFullSample headerContSample
    [⟨"[0] BTCUSDT: O=0 H=0 L=0 C=0 | Vol dev=+0.00% (r=0.20)", 0, 1⟩]
    (by decide) (by decide)
    (by
      intro l hl
      have hcl : classifyLines
          [⟨"[0] BTCUSDT: O=0 H=0 L=0 C=0 | Vol dev=+0.00% (r=0.20)", 0, 1⟩]
          = ([], ["[0] BTCUSDT: O=0 H=0 L=0 C=0 | Vol dev=+0.00% (r=0.20)"]) := by
        simp [classifyLines]
      rw [linesAll, hcl] at hl
      simp at hl
      subst hl
      decide)

theorem c3_amended_witness :
    (fetch_ohlcv_history "BINANCE_FUTURES" (fun _ => BinResp.timeout)
      (fun _ => BitResp.httpErr 404)).2 = 1 ∧
    (fetch_bitda (fun _ => BitResp.httpErr 404)).1
      = bitda_do_request (BitResp.httpErr 404) ∧
    (fetch_bitda (fun _ => BitResp.httpErr 404)).2 = 2 :=
  ⟨(c3_amended (fun _ => BinResp.timeout) (fun _ => BitResp.httpErr 404)).1
      "BINANCE_FUTURES" rfl,
   ((c3_amended (fun _ => BinResp.timeout) (fun _ => BitResp.httpErr 404)).2.2
      "HTTPError: 404" rfl).1,
   ((c3_amended (fun _ => BinResp.timeout) (fun _ => BitResp.httpErr 404)).2.2
      "HTTPError: 404" rfl).2⟩

end Monitor


